import Mathlib

/-!
Verification of the omni_httpd extension core
(`src/extensions/omni_httpd/omni_httpd.c`).

The development shallowly embeds the exported functions of the extension:
`http_response` (response building with content-type inference), the static
helper `add_header`, the trigger `handlers_query_validity_trigger` and the
trigger `reload_configuration`.  PostgreSQL machinery is made explicit:
nullable SQL arguments become `Option`, a `Datum` array of `http_header`
becomes a list of optional header records (array elements may be SQL NULL),
`ereport(ERROR, ...)` becomes the `Except.error` branch, and the runtime
body-type dispatch on `get_fn_expr_argtype` becomes a tagged body value.
Character-level operations (the `strncasecmp` comparison, JSON text) are
modelled over `List Char` with ASCII case folding, matching the byte-level C
behaviour on ASCII data.
-/

namespace OmniHttpd

/-- ASCII case folding, the behaviour of C `tolower` in the C locale on
ASCII bytes: uppercase letters are shifted to lowercase, all other
characters are unchanged. -/
def asciiLower (c : Char) : Char :=
  if 65 ≤ c.toNat ∧ c.toNat ≤ 90 then Char.ofNat (c.toNat + 32) else c

/-- The comparison performed at omni_httpd.c:198,
`strncasecmp(VARDATA_ANY(name_str), "content-type", VARSIZE_ANY_EXHDR(name_str)) == 0`:
only the first `length name` characters are compared, and `strncasecmp`
stops at the NUL terminator of the literal, so the test succeeds exactly
when the case-folded header name is a prefix of `"content-type"`
(including the empty name and truncated names such as `"content"`). -/
def ctNameMatch (n : String) : Bool :=
  List.isPrefixOf (n.data.map asciiLower) ("content-type".data)

/-- Case-insensitive equality of a header name with `content-type`; this is
the predicate the specification speaks about. -/
def isCTNameExact (n : String) : Bool :=
  n.data.map asciiLower = "content-type".data

/-- One `http_header` composite value: `(name text, value text, append bool)`.
The attributes `name` and `value` may be SQL NULL; `http_response` reads the
`name` attribute and checks its null flag (omni_httpd.c:195). -/
structure Header where
  name : Option String
  value : Option String
  append : Bool
deriving DecidableEq

/-- One step of the content-type scan: a non-NULL array element with a
non-NULL name whose name passes the `strncasecmp` test. -/
def headerMatchesCT : Option Header → Bool
  | none => false
  | some h =>
    match h.name with
    | none => false
    | some n => ctNameMatch n

/-- The content-type scan of omni_httpd.c:189-207: iterate over the header
array, skip NULL elements and NULL names, and stop as soon as one name
passes the `strncasecmp` test.  A missing array (`headers == 0`, i.e. a SQL
NULL argument) scans as `false`. -/
def scanHasCT (hs : Option (List (Option Header))) : Bool :=
  match hs with
  | none => false
  | some l => l.any headerMatchesCT

/-- A header record whose name is non-NULL and case-insensitively equal to
`content-type` (the specification's predicate, not the code's test). -/
def headerNameIsCT (h : Header) : Bool :=
  match h.name with
  | none => false
  | some n => isCTNameExact n

/-- A non-NULL array element satisfying `headerNameIsCT`. -/
def headerIsExactCT : Option Header → Bool
  | none => false
  | some h => headerNameIsCT h

/-- A header list contains an element whose name is case-insensitively equal
to `content-type`. -/
def hasExactCT (l : List (Option Header)) : Bool :=
  l.any headerIsExactCT

/-- The sublist of headers named (case-insensitively, exactly)
`content-type`. -/
def ctHeadersOf (l : List (Option Header)) : List Header :=
  (l.filterMap id).filter headerNameIsCT

/-- Number of elements of an optional header array, with a SQL NULL array
counting as zero; this is the `dims[0]` of the expanded array in
`add_header`. -/
def headersLen (hs : Option (List (Option Header))) : Nat :=
  match hs with
  | none => 0
  | some l => l.length

/-- A structured JSON value as stored in a `jsonb` datum: the model of the
spec's `Json(Value)` body variant.  Numbers are modelled as integers. -/
inductive JsonVal where
  | null
  | bool (b : Bool)
  | num (n : Int)
  | str (s : String)
  | arr (elems : List JsonVal)
  | obj (fields : List (String × JsonVal))

/-- Decimal digit character for a value below ten. -/
def digitChar (d : Nat) : Char :=
  Char.ofNat (48 + d)

/-- Little-endian decimal digits of `n`, driven by explicit fuel so that the
definition is structurally recursive and kernel-evaluable. -/
def natDigitsRev : Nat → Nat → List Char
  | 0, _ => []
  | fuel+1, n => if n = 0 then [] else digitChar (n % 10) :: natDigitsRev fuel (n / 10)

/-- Canonical decimal rendering of a natural number. -/
def encNat (n : Nat) : List Char :=
  if n = 0 then ['0'] else (natDigitsRev n n).reverse

/-- Canonical decimal rendering of an integer. -/
def encInt (n : Int) : List Char :=
  if n < 0 then '-' :: encNat n.natAbs else encNat n.natAbs

/-- JSON string-body escaping: quote and backslash are escaped, every other
character is emitted verbatim. -/
def encStrChars : List Char → List Char
  | [] => []
  | c :: rest =>
    if c = '"' ∨ c = '\\' then '\\' :: c :: encStrChars rest
    else c :: encStrChars rest

mutual

/-- Canonical JSON text encoding of one value. -/
def encV : JsonVal → List Char
  | .null => 'n' :: 'u' :: 'l' :: 'l' :: []
  | .bool true => 't' :: 'r' :: 'u' :: 'e' :: []
  | .bool false => 'f' :: 'a' :: 'l' :: 's' :: 'e' :: []
  | .num n => encInt n
  | .str s => '"' :: encStrChars s.data ++ ['"']
  | .arr es => '[' :: encL es ++ [']']
  | .obj fs => '{' :: encF fs ++ ['}']

/-- Comma-separated encoding of array elements. -/
def encL : List JsonVal → List Char
  | [] => []
  | [v] => encV v
  | v :: vs => encV v ++ ',' :: encL vs

/-- Comma-separated encoding of object fields. -/
def encF : List (String × JsonVal) → List Char
  | [] => []
  | [(k, v)] => '"' :: encStrChars k.data ++ '"' :: ':' :: encV v
  | (k, v) :: fs => '"' :: encStrChars k.data ++ '"' :: ':' :: encV v ++ ',' :: encF fs

end

/-- Modelled from the spec: `JsonbToCString` (omni_httpd.c:228), the
canonical text form of a structured JSON value.  The implementation lives in
PostgreSQL, outside this repository; the spec calls its output the
"canonical text form" of the value. -/
def jsonbToCString (v : JsonVal) : String :=
  String.mk (encV v)

mutual

/-- Node-count measure of a JSON value, used as parser fuel accounting. -/
def jsizeV : JsonVal → Nat
  | .null => 1
  | .bool _ => 1
  | .num _ => 1
  | .str _ => 1
  | .arr es => 1 + jsizeL es
  | .obj fs => 1 + jsizeF fs

/-- Measure of an element list. -/
def jsizeL : List JsonVal → Nat
  | [] => 1
  | v :: vs => jsizeV v + jsizeL vs

/-- Measure of a field list. -/
def jsizeF : List (String × JsonVal) → Nat
  | [] => 1
  | (_, v) :: fs => jsizeV v + jsizeF fs

end

/-- JSON whitespace. -/
def isWsChar (c : Char) : Bool :=
  c = ' ' ∨ c = '\t' ∨ c = '\n' ∨ c = '\r'

/-- Drop leading JSON whitespace. -/
def skipWs (cs : List Char) : List Char :=
  cs.dropWhile isWsChar

/-- ASCII decimal digit test. -/
def isDigitCh (c : Char) : Bool :=
  48 ≤ c.toNat ∧ c.toNat ≤ 57

/-- Value of a big-endian list of decimal digit characters. -/
def digitsToNat (ds : List Char) : Nat :=
  ds.foldl (fun a c => a * 10 + (c.toNat - 48)) 0

/-- Read a maximal run of decimal digits. -/
def parseNum (cs : List Char) : Option (Nat × List Char) :=
  let ds := cs.takeWhile isDigitCh
  if ds = [] then none else some (digitsToNat ds, cs.dropWhile isDigitCh)

/-- Read the body of a JSON string up to the closing quote, undoing the
escaping of `encStrChars`. -/
def parseStrBody : List Char → Option (List Char × List Char)
  | [] => none
  | c :: rest =>
    if c = '"' then some ([], rest)
    else if c = '\\' then
      match rest with
      | [] => none
      | c2 :: rest2 =>
        if c2 = '"' ∨ c2 = '\\' then
          match parseStrBody rest2 with
          | some (s, r) => some (c2 :: s, r)
          | none => none
        else none
    else
      match parseStrBody rest with
      | some (s, r) => some (c :: s, r)
      | none => none

/-- Fuel-driven recursive-descent parser for JSON texts.  Array and object
tails are parsed by re-entering the parser on a reconstructed container, the
mirror image of the encoder's splicing. -/
def parseJ : Nat → List Char → Option (JsonVal × List Char)
  | 0, _ => none
  | fuel+1, cs0 =>
    match skipWs cs0 with
    | [] => none
    | c :: cs =>
      if c = 'n' then
        match cs with
        | 'u' :: 'l' :: 'l' :: rest => some (.null, rest)
        | _ => none
      else if c = 't' then
        match cs with
        | 'r' :: 'u' :: 'e' :: rest => some (.bool true, rest)
        | _ => none
      else if c = 'f' then
        match cs with
        | 'a' :: 'l' :: 's' :: 'e' :: rest => some (.bool false, rest)
        | _ => none
      else if c = '"' then
        match parseStrBody cs with
        | some (s, rest) => some (.str (String.mk s), rest)
        | none => none
      else if c = '[' then
        match skipWs cs with
        | [] => none
        | c1 :: r1 =>
          if c1 = ']' then some (.arr [], r1)
          else
            match parseJ fuel (c1 :: r1) with
            | none => none
            | some (v, r2) =>
              match skipWs r2 with
              | ',' :: r3 =>
                match parseJ fuel ('[' :: r3) with
                | some (.arr vs, r4) => some (.arr (v :: vs), r4)
                | _ => none
              | ']' :: r3 => some (.arr [v], r3)
              | _ => none
      else if c = '{' then
        match skipWs cs with
        | [] => none
        | c1 :: r1 =>
          if c1 = '}' then some (.obj [], r1)
          else if c1 = '"' then
            match parseStrBody r1 with
            | none => none
            | some (k, r2) =>
              match skipWs r2 with
              | ':' :: r3 =>
                match parseJ fuel r3 with
                | none => none
                | some (v, r4) =>
                  match skipWs r4 with
                  | ',' :: r5 =>
                    match parseJ fuel ('{' :: r5) with
                    | some (.obj kvs, r6) => some (.obj ((String.mk k, v) :: kvs), r6)
                    | _ => none
                  | '}' :: r5 => some (.obj [(String.mk k, v)], r5)
                  | _ => none
              | _ => none
          else none
      else if c = '-' then
        match parseNum cs with
        | some (m, rest) => some (.num (-(m : Int)), rest)
        | none => none
      else if isDigitCh c then
        match parseNum (c :: cs) with
        | some (m, rest) => some (.num (m : Int), rest)
        | none => none
      else none

/-- Modelled from the spec: decoding a JSON text back to a structured value
(the spec's round-trip property "decoding it from the emitted response body
yields a value equal to the input"; the decoder lives in PostgreSQL, outside
this repository).  Trailing whitespace is tolerated, as in PostgreSQL's JSON
lexer. -/
def jsonDecode (s : String) : Option JsonVal :=
  match parseJ (s.data.length + 1) s.data with
  | some (v, rest) => if skipWs rest = [] then some v else none
  | none => none

/-- The body argument of `http_response` together with the static argument
type tag that `get_fn_expr_argtype` reports (omni_httpd.c:209): one
constructor per `case` label of the switch, and `other` for the `default`
label, carrying the type name that `format_type_extended` would print. -/
inductive BodyVal where
  | text (s : String)
  | varchar (s : String)
  | char (s : String)
  | bytea (bs : List Nat)
  | json (s : String)
  | jsonb (v : JsonVal)
  | other (typeName : String)

/-- The body types with a non-erroring `case` label in the switch. -/
def isSupportedBody : BodyVal → Bool
  | .other _ => false
  | _ => true

/-- The content-type value inferred for each supported body type
(omni_httpd.c:217, 223, 233). -/
def inferredContentType : BodyVal → String
  | .text _ | .varchar _ | .char _ => "text/plain; charset=utf-8"
  | .bytea _ => "application/octet-stream"
  | .json _ | .jsonb _ => "text/json"
  | .other _ => ""

/-- `pg_add_s32_overflow` from PostgreSQL's `common/int.h`: signed 32-bit
addition that reports overflow instead of wrapping.  `none` is the overflow
outcome. -/
def pg_add_s32_overflow (a b : Int) : Option Int :=
  if a + b < -(2 ^ 31) ∨ 2 ^ 31 - 1 < a + b then none else some (a + b)

/-- The insertion-index computation of `add_header` (omni_httpd.c:141-147):
`indx = lbound[0] + dims[0]`, guarded by `pg_add_s32_overflow`; overflow
raises `integer out of range`. -/
def add_header_index (lb dim : Int) : Except String Int :=
  match pg_add_s32_overflow lb dim with
  | none => .error "integer out of range"
  | some i => .ok i

/-- `add_header` (omni_httpd.c:116-148) at the level of header sequences.
A SQL NULL array is passed as the sentinel `headers == 0` and yields a fresh
singleton array; otherwise the new header is stored at index
`lbound[0] + dims[0]`, i.e. one past the last element, after the overflow
check on that index (a one-dimensional array of `dims[0]` elements based at
`lbound[0]`; the model keeps the base at 1, the lower bound of every array
`add_header` itself builds). -/
def add_header (hs : Option (List (Option Header))) (name value : String) (app : Bool) :
    Except String (List (Option Header)) :=
  match hs with
  | none => .ok [some ⟨some name, some value, app⟩]
  | some l =>
    if (2 : Int) ^ 31 - 1 < 1 + l.length then .error "integer out of range"
    else .ok (l ++ [some ⟨some name, some value, app⟩])

/-- The `http_response` composite value `(status int, headers http_header[],
body bytea)` as formed by `heap_form_tuple` (omni_httpd.c:243-245): the
headers field is SQL NULL exactly when the headers datum is still the
sentinel 0, the body field is SQL NULL exactly when the body argument was. -/
structure HttpResponseRec where
  status : Int
  headers : Option (List (Option Header))
  body : Option BodyVal

/-- `http_response` (omni_httpd.c:152-255).  A NULL status defaults to 200;
a NULL headers argument becomes the sentinel empty value; for a non-NULL
body the header array is scanned for an existing content-type and, when none
is found, a content-type inferred from the body's argument type is added
with append=false; a `jsonb` body is re-encoded to its canonical text and
replaces the body datum, and its `case` label falls through to the `json`
label; an unsupported body type raises an error. -/
def http_response (status : Option Int) (headers : Option (List (Option Header)))
    (body : Option BodyVal) : Except String HttpResponseRec :=
  let st : Int := match status with | none => 200 | some s => s
  match body with
  | none => .ok ⟨st, headers, none⟩
  | some b =>
    let hasCT := scanHasCT headers
    match b with
    | .text _ | .varchar _ | .char _ =>
      if hasCT then .ok ⟨st, headers, some b⟩
      else
        match add_header headers "content-type" "text/plain; charset=utf-8" false with
        | .error e => .error e
        | .ok l => .ok ⟨st, some l, some b⟩
    | .bytea _ =>
      if hasCT then .ok ⟨st, headers, some b⟩
      else
        match add_header headers "content-type" "application/octet-stream" false with
        | .error e => .error e
        | .ok l => .ok ⟨st, some l, some b⟩
    | .jsonb v =>
      if hasCT then .ok ⟨st, headers, some (BodyVal.text (jsonbToCString v))⟩
      else
        match add_header headers "content-type" "text/json" false with
        | .error e => .error e
        | .ok l => .ok ⟨st, some l, some (BodyVal.text (jsonbToCString v))⟩
    | .json _ =>
      if hasCT then .ok ⟨st, headers, some b⟩
      else
        match add_header headers "content-type" "text/json" false with
        | .error e => .error e
        | .ok l => .ok ⟨st, some l, some b⟩
    | .other ty => .error ("Can't (yet) cast " ++ ty ++ " to bytea")

/-- Modelled from the spec: the fixed notification channel name constant
`OMNI_HTTPD_CONFIGURATION_NOTIFY_CHANNEL` (defined in omni_httpd.h, which is
not under src/; the spec says only "a fixed channel name (string
constant)"). -/
def configuration_notify_channel : String :=
  "omni_httpd_configuration_reload"

/-- The observable backend state touched by `reload_configuration`: the
sequence of notifications posted in the transaction and the value of the
shared configuration-reload semaphore. -/
structure PgNotifyState where
  notifications : List String
  reloadSemaphore : Nat
deriving DecidableEq

/-- Return value of `reload_configuration`: the new tuple when called as a
trigger, the boolean `true` otherwise. -/
inductive ReloadResult where
  | newTuple
  | boolResult (b : Bool)
deriving DecidableEq

/-- `reload_configuration` (omni_httpd.c:97-105): posts a payload-less
notification on the fixed channel via `Async_Notify` and returns; the
function body contains no other state change. -/
def reload_configuration (calledAsTrigger : Bool) (st : PgNotifyState) :
    PgNotifyState × ReloadResult :=
  (⟨st.notifications ++ [configuration_notify_channel], st.reloadSemaphore⟩,
   if calledAsTrigger then .newTuple else .boolResult true)

/-- Modelled from the spec: the external omni_sql operations used by the
validity trigger.  Their implementations are not under src/ (omni_sql.h only
declares them); the spec treats the SQL parser/validator as an external
collaborator, so the trigger is verified for every choice of these
operations.  `parseStatement` parses a SQL text into a statement list,
`addCte` attaches a named CTE (with recursive and prepend flags), `isValid`
returns `none` for a statically valid statement list and a diagnostic
otherwise. -/
structure SqlOps (α : Type) where
  parseStatement : String → List α
  addCte : List α → String → List α → Bool → Bool → List α
  isValid : List α → Option String

/-- The SQL text of the injected `request` CTE stub
(omni_httpd.c:272-274): one column per request attribute, with NULLs of the
canonical types. -/
def request_cte_text : String :=
  "SELECT NULL::omni_httpd.http_method AS method, NULL::text AS path, NULL::text AS query_string, NULL::bytea AS body, NULL::omni_httpd.http_header[] AS headers"

/-- `handlers_query_validity_trigger` (omni_httpd.c:259-284).  The row being
validated is represented by its `query` column (attribute 2, the value the
trigger reads); on success the trigger returns the unmodified tuple. -/
def handlers_query_validity_trigger {α : Type} (ops : SqlOps α) (calledAsTrigger : Bool)
    (query : Option String) : Except String (Option String) :=
  if calledAsTrigger then
    match query with
    | none => .error "query can't be null"
    | some q =>
      let stmts := ops.parseStatement q
      if stmts.length ≠ 1 then .error "query can only contain one statement"
      else
        let requestCte := ops.parseStatement request_cte_text
        match ops.isValid (ops.addCte stmts "request" requestCte false true) with
        | some err => .error ("invalid query: " ++ err)
        | none => .ok query
  else .error "can only be called as a trigger"

/-- Success test for an `Except` outcome. -/
def isOkE {ε β : Type} : Except ε β → Bool
  | .ok _ => true
  | .error _ => false

end OmniHttpd

namespace OmniHttpd

/-- A list that does not start with a decimal digit (possibly because it is
empty); maximal-munch number parsing stops exactly at such a boundary. -/
def headNotDigit : List Char → Bool
  | [] => true
  | c :: _ => !(isDigitCh c)

theorem isDigitCh_ne_of {c x : Char} (hc : isDigitCh c = true) (hx : isDigitCh x = false) :
    c ≠ x := by
  intro h
  rw [h, hx] at hc
  exact Bool.noConfusion hc

theorem digit_not_ws {c : Char} (hc : isDigitCh c = true) : isWsChar c = false := by
  simp only [isDigitCh, decide_eq_true_eq] at hc
  simp only [isWsChar, decide_eq_false_iff_not]
  rintro (rfl | rfl | rfl | rfl) <;> simp_all

theorem skipWs_cons_of {c : Char} (l : List Char) (h : isWsChar c = false) :
    skipWs (c :: l) = c :: l := by
  simp [skipWs, List.dropWhile, h]

theorem digitChar_isDigit {d : Nat} (hd : d < 10) :
    isDigitCh (digitChar d) = true ∧ (digitChar d).toNat = 48 + d := by
  interval_cases d <;> exact ⟨by decide, by decide⟩

end OmniHttpd

namespace OmniHttpd

theorem takeWhile_digits_append (xs ys : List Char)
    (hxs : ∀ c ∈ xs, isDigitCh c = true) (hys : headNotDigit ys = true) :
    List.takeWhile isDigitCh (xs ++ ys) = xs ∧ List.dropWhile isDigitCh (xs ++ ys) = ys := by
  induction xs with
  | nil =>
    simp only [List.nil_append]
    cases ys with
    | nil => simp
    | cons y t =>
      simp only [headNotDigit, Bool.not_eq_true'] at hys
      simp [List.takeWhile, List.dropWhile, hys]
  | cons x xs ih =>
    have hx : isDigitCh x = true := hxs x (List.mem_cons_self x xs)
    have ih' := ih (fun c hc => hxs c (List.mem_cons_of_mem x hc)) 
    simp [List.takeWhile, List.dropWhile, hx, ih'.1, ih'.2]

theorem natDigitsRev_all_digits :
    ∀ (fuel n : Nat), ∀ c ∈ natDigitsRev fuel n, isDigitCh c = true := by
  intro fuel
  induction fuel with
  | zero => intro n c hc; simp [natDigitsRev] at hc
  | succ fuel ih =>
    intro n c hc
    by_cases hn : n = 0
    · simp [natDigitsRev, hn] at hc
    · simp only [natDigitsRev, if_neg hn, List.mem_cons] at hc
      rcases hc with rfl | hc
      · exact (digitChar_isDigit (Nat.mod_lt _ (by norm_num))).1
      · exact ih _ c hc

theorem encNat_all_digits (n : Nat) : ∀ c ∈ encNat n, isDigitCh c = true := by
  intro c hc
  by_cases hn : n = 0
  · simp [encNat, hn] at hc
    subst hc
    decide
  · simp only [encNat, if_neg hn, List.mem_reverse] at hc
    exact natDigitsRev_all_digits n n c hc

theorem encNat_ne_nil (n : Nat) : encNat n ≠ [] := by
  by_cases hn : n = 0
  · simp [encNat, hn]
  · have h1 : 1 ≤ n := Nat.one_le_iff_ne_zero.mpr hn
    obtain ⟨m, rfl⟩ : ∃ m, n = m + 1 := ⟨n - 1, by omega⟩
    simp [encNat, natDigitsRev, hn]

theorem foldl_natDigitsRev (fuel : Nat) :
    ∀ n acc, n ≤ fuel →
      List.foldl (fun a c => a * 10 + (c.toNat - 48)) acc ((natDigitsRev fuel n).reverse)
        = acc * 10 ^ (natDigitsRev fuel n).length + n := by
  induction fuel with
  | zero =>
    intro n acc hn
    interval_cases n
    simp [natDigitsRev]
  | succ fuel ih =>
    intro n acc hn
    by_cases h0 : n = 0
    · simp [natDigitsRev, h0]
    · have hdiv : n / 10 ≤ fuel := by omega
      have hmod : n % 10 < 10 := Nat.mod_lt _ (by norm_num)
      simp only [natDigitsRev, if_neg h0, List.reverse_cons, List.foldl_append, List.foldl_cons,
        List.foldl_nil, List.length_cons]
      rw [ih (n / 10) acc hdiv, (digitChar_isDigit hmod).2]
      have : 48 + n % 10 - 48 = n % 10 := by omega
      rw [this, pow_succ]
      have hnm : n / 10 * 10 + n % 10 = n := by omega
      ring_nf
      omega

theorem digitsToNat_encNat (n : Nat) : digitsToNat (encNat n) = n := by
  by_cases hn : n = 0
  · simp [digitsToNat, encNat, hn]
  · simp only [digitsToNat, encNat, if_neg hn]
    rw [foldl_natDigitsRev n n 0 (le_refl n)]
    simp

theorem parseNum_encNat (n : Nat) (rest : List Char) (hrest : headNotDigit rest = true) :
    parseNum (encNat n ++ rest) = some (n, rest) := by
  obtain ⟨ht, hd⟩ := takeWhile_digits_append (encNat n) rest (encNat_all_digits n) hrest
  simp only [parseNum, ht, hd, if_neg (encNat_ne_nil n), digitsToNat_encNat]

theorem encNat_head (n : Nat) : ∃ c t, encNat n = c :: t ∧ isDigitCh c = true := by
  cases h : encNat n with
  | nil => exact absurd h (encNat_ne_nil n)
  | cons c t =>
    refine ⟨c, t, rfl, encNat_all_digits n c ?_⟩
    rw [h]
    exact List.mem_cons_self c t

end OmniHttpd

namespace OmniHttpd

theorem parseStrBody_enc (s rest : List Char) :
    parseStrBody (encStrChars s ++ '"' :: rest) = some (s, rest) := by
  induction s with
  | nil =>
    rw [show encStrChars [] = [] from rfl, List.nil_append, parseStrBody.eq_def]
    simp
  | cons c cs ih =>
    by_cases hc : c = '"' ∨ c = '\\'
    · simp only [encStrChars, if_pos hc, List.cons_append]
      rw [parseStrBody.eq_def]
      simp only [reduceCtorEq, reduceIte, Char.reduceEq]
      rw [if_pos hc, ih]
    · have h1 : c ≠ '"' := fun h => hc (Or.inl h)
      have h2 : c ≠ '\\' := fun h => hc (Or.inr h)
      simp only [encStrChars, if_neg hc, List.cons_append]
      rw [parseStrBody.eq_def]
      simp only [if_neg h1, if_neg h2, ih]

theorem jsizeV_pos (v : JsonVal) : 1 ≤ jsizeV v := by
  cases v <;> simp [jsizeV]

theorem jsizeL_pos (l : List JsonVal) : 1 ≤ jsizeL l := by
  cases l with
  | nil => simp [jsizeL]
  | cons v vs =>
    have := jsizeV_pos v
    rw [jsizeL]
    omega

theorem jsizeF_pos (fs : List (String × JsonVal)) : 1 ≤ jsizeF fs := by
  cases fs with
  | nil => simp [jsizeF]
  | cons kv fs =>
    obtain ⟨k, v⟩ := kv
    have := jsizeV_pos v
    rw [jsizeF]
    omega

theorem encV_head (v : JsonVal) :
    ∃ c t, encV v = c :: t ∧ isWsChar c = false ∧ c ≠ ']' := by
  cases v with
  | null => exact ⟨'n', _, rfl, by decide, by decide⟩
  | bool b =>
    cases b
    · exact ⟨'f', _, rfl, by decide, by decide⟩
    · exact ⟨'t', _, rfl, by decide, by decide⟩
  | num n =>
    by_cases hn : n < 0
    · exact ⟨'-', _, by rw [encV, encInt, if_pos hn], by decide, by decide⟩
    · obtain ⟨c, t, hct, hdig⟩ := encNat_head n.natAbs
      refine ⟨c, t, by rw [encV, encInt, if_neg hn, hct], digit_not_ws hdig, ?_⟩
      exact isDigitCh_ne_of hdig (by decide)
  | str s => exact ⟨'"', _, rfl, by decide, by decide⟩
  | arr es => exact ⟨'[', _, rfl, by decide, by decide⟩
  | obj fs => exact ⟨'{', _, rfl, by decide, by decide⟩

end OmniHttpd

namespace OmniHttpd

theorem headNotDigit_cons {c : Char} (l : List Char) (h : isDigitCh c = false) :
    headNotDigit (c :: l) = true := by
  simp [headNotDigit, h]

theorem parseJ_encV :
    ∀ (n : Nat) (v : JsonVal) (rest : List Char),
      jsizeV v ≤ n → headNotDigit rest = true →
      parseJ n (encV v ++ rest) = some (v, rest) := by
  intro n
  induction n with
  | zero =>
    intro v rest hs _
    have := jsizeV_pos v
    omega
  | succ m ih =>
    intro v rest hs hrest
    cases v with
    | null =>
      rw [show encV .null = ['n', 'u', 'l', 'l'] from rfl]
      rw [parseJ.eq_def]
      simp only [List.cons_append, List.nil_append]
      rw [skipWs_cons_of _ (by decide)]
      simp
    | bool b =>
      cases b
      · rw [show encV (.bool false) = ['f', 'a', 'l', 's', 'e'] from rfl]
        rw [parseJ.eq_def]
        simp only [List.cons_append, List.nil_append]
        rw [skipWs_cons_of _ (by decide)]
        simp
      · rw [show encV (.bool true) = ['t', 'r', 'u', 'e'] from rfl]
        rw [parseJ.eq_def]
        simp only [List.cons_append, List.nil_append]
        rw [skipWs_cons_of _ (by decide)]
        simp
    | num k =>
      by_cases hk : k < 0
      · have he : encV (.num k) = '-' :: encNat k.natAbs := by
          rw [encV, encInt, if_pos hk]
        rw [he, List.cons_append, parseJ]
        rw [skipWs_cons_of _ (by decide)]
        simp only [Char.reduceEq, reduceIte]
        rw [parseNum_encNat _ _ hrest]
        have hcast : -((k.natAbs : Nat) : Int) = k := by omega
        exact congrArg (fun z => some (JsonVal.num z, rest)) hcast
      · obtain ⟨c, t, hct, hdig⟩ := encNat_head k.natAbs
        have he : encV (.num k) = c :: t := by
          rw [encV, encInt, if_neg hk, hct]
        rw [he, List.cons_append, parseJ]
        rw [skipWs_cons_of _ (digit_not_ws hdig)]
        simp only []
        rw [if_neg (isDigitCh_ne_of hdig (by decide) : c ≠ 'n'),
          if_neg (isDigitCh_ne_of hdig (by decide) : c ≠ 't'),
          if_neg (isDigitCh_ne_of hdig (by decide) : c ≠ 'f'),
          if_neg (isDigitCh_ne_of hdig (by decide) : c ≠ '"'),
          if_neg (isDigitCh_ne_of hdig (by decide) : c ≠ '['),
          if_neg (isDigitCh_ne_of hdig (by decide) : c ≠ '{'),
          if_neg (isDigitCh_ne_of hdig (by decide) : c ≠ '-'),
          if_pos hdig]
        rw [← List.cons_append, ← hct]
        rw [parseNum_encNat _ _ hrest]
        have hcast : ((k.natAbs : Nat) : Int) = k := by omega
        exact congrArg (fun z => some (JsonVal.num z, rest)) hcast
    | str s =>
      have he : encV (.str s) ++ rest = '"' :: (encStrChars s.data ++ '"' :: rest) := by
        rw [encV]
        simp [List.cons_append, List.append_assoc]
      rw [he, parseJ]
      rw [skipWs_cons_of _ (by decide)]
      simp only [Char.reduceEq, reduceIte]
      rw [parseStrBody_enc]
    | arr es =>
      cases es with
      | nil =>
        have he : encV (.arr []) ++ rest = '[' :: ']' :: rest := by
          rw [encV, encL]
          simp
        rw [he, parseJ]
        rw [skipWs_cons_of _ (by decide)]
        simp only [Char.reduceEq, reduceIte]
        rw [skipWs_cons_of _ (by decide)]
        simp
      | cons x xs =>
        obtain ⟨c0, t0, hc0, hws0, hne0⟩ := encV_head x
        cases xs with
        | nil =>
          have he : encV (.arr [x]) ++ rest = '[' :: (encV x ++ ']' :: rest) := by
            rw [encV, encL]
            simp
          have hx : jsizeV x ≤ m := by
            rw [jsizeV, jsizeL, jsizeL] at hs
            omega
          rw [he, parseJ]
          rw [skipWs_cons_of _ (by decide)]
          simp only [Char.reduceEq, reduceIte]
          rw [hc0, List.cons_append]
          rw [skipWs_cons_of _ hws0]
          simp only [reduceIte, if_neg hne0]
          rw [← List.cons_append, ← hc0]
          rw [ih x (']' :: rest) hx (headNotDigit_cons _ (by decide))]
          simp only []
          rw [skipWs_cons_of _ (by decide)]
          simp
        | cons y ys =>
          have he : encV (.arr (x :: y :: ys)) ++ rest
              = '[' :: (encV x ++ ',' :: (encL (y :: ys) ++ ']' :: rest)) := by
            rw [encV, encL] <;> simp
          have hx : jsizeV x ≤ m := by
            rw [jsizeV, jsizeL] at hs
            have := jsizeL_pos (y :: ys)
            omega
          have hxs : jsizeV (.arr (y :: ys)) ≤ m := by
            rw [jsizeV, jsizeL] at hs
            rw [jsizeV]
            have := jsizeV_pos x
            omega
          rw [he, parseJ]
          rw [skipWs_cons_of _ (by decide)]
          simp only [Char.reduceEq, reduceIte]
          rw [hc0, List.cons_append]
          rw [skipWs_cons_of _ hws0]
          simp only [reduceIte, if_neg hne0]
          rw [← List.cons_append, ← hc0]
          rw [ih x (',' :: (encL (y :: ys) ++ ']' :: rest)) hx (headNotDigit_cons _ (by decide))]
          simp only []
          rw [skipWs_cons_of _ (by decide)]
          have harr : encV (.arr (y :: ys)) ++ rest = '[' :: (encL (y :: ys) ++ ']' :: rest) := by
            rw [encV]
            simp
          simp only [← harr]
          rw [ih (.arr (y :: ys)) rest hxs hrest]
    | obj fs =>
      cases fs with
      | nil =>
        have he : encV (.obj []) ++ rest = '{' :: '}' :: rest := by
          rw [encV, encF]
          simp
        rw [he, parseJ]
        rw [skipWs_cons_of _ (by decide)]
        simp only [Char.reduceEq, reduceIte]
        rw [skipWs_cons_of _ (by decide)]
        simp
      | cons kv xs =>
        obtain ⟨k, x⟩ := kv
        cases xs with
        | nil =>
          have he : encV (.obj [(k, x)]) ++ rest
              = '{' :: ('"' :: (encStrChars k.data ++ '"' :: ':' :: (encV x ++ '}' :: rest))) := by
            rw [encV, encF]
            simp
          have hx : jsizeV x ≤ m := by
            rw [jsizeV, jsizeF, jsizeF] at hs
            omega
          rw [he, parseJ]
          rw [skipWs_cons_of _ (by decide)]
          simp only [Char.reduceEq, reduceIte]
          rw [skipWs_cons_of _ (by decide)]
          simp only [Char.reduceEq, reduceIte]
          rw [parseStrBody_enc]
          simp only []
          rw [skipWs_cons_of _ (by decide)]
          simp only [Char.reduceEq, reduceIte]
          rw [ih x ('}' :: rest) hx (headNotDigit_cons _ (by decide))]
          simp only []
          rw [skipWs_cons_of _ (by decide)]
          simp
        | cons z zs =>
          have he : encV (.obj ((k, x) :: z :: zs)) ++ rest
              = '{' :: ('"' :: (encStrChars k.data ++ '"' :: ':' ::
                  (encV x ++ ',' :: (encF (z :: zs) ++ '}' :: rest)))) := by
            rw [encV, encF] <;> simp
          have hx : jsizeV x ≤ m := by
            rw [jsizeV, jsizeF] at hs
            have := jsizeF_pos (z :: zs)
            omega
          have hzs : jsizeV (.obj (z :: zs)) ≤ m := by
            rw [jsizeV, jsizeF] at hs
            rw [jsizeV]
            have := jsizeV_pos x
            omega
          have hobJ : encV (.obj (z :: zs)) ++ rest = '{' :: (encF (z :: zs) ++ '}' :: rest) := by
            rw [encV]
            simp
          rw [he, parseJ]
          rw [skipWs_cons_of _ (by decide)]
          simp only [Char.reduceEq, reduceIte]
          rw [skipWs_cons_of _ (by decide)]
          simp only [Char.reduceEq, reduceIte]
          rw [parseStrBody_enc]
          simp only []
          rw [skipWs_cons_of _ (by decide)]
          simp only [Char.reduceEq, reduceIte]
          rw [ih x (',' :: (encF (z :: zs) ++ '}' :: rest)) hx (headNotDigit_cons _ (by decide))]
          simp only []
          rw [skipWs_cons_of _ (by decide)]
          simp only [← hobJ]
          rw [ih (.obj (z :: zs)) rest hzs hrest]

end OmniHttpd

namespace OmniHttpd

theorem jsize_le_encLen :
    ∀ n : Nat,
      (∀ v, jsizeV v ≤ n → jsizeV v ≤ (encV v).length) ∧
      (∀ l, jsizeL l ≤ n → jsizeL l ≤ (encL l).length + 1) ∧
      (∀ fs, jsizeF fs ≤ n → jsizeF fs ≤ (encF fs).length + 1) := by
  intro n
  induction n with
  | zero =>
    refine ⟨fun v hv => absurd hv ?_, fun l hl => absurd hl ?_, fun fs hfs => absurd hfs ?_⟩
    · have := jsizeV_pos v; omega
    · have := jsizeL_pos l; omega
    · have := jsizeF_pos fs; omega
  | succ m ih =>
    obtain ⟨ihV, ihL, ihF⟩ := ih
    refine ⟨?_, ?_, ?_⟩
    · intro v hv
      cases v with
      | null => simp [jsizeV, encV]
      | bool b => cases b <;> simp [jsizeV, encV]
      | num k =>
        rw [jsizeV, encV, encInt]
        by_cases hk : k < 0
        · simp [hk]
        · have hpos : 0 < (encNat k.natAbs).length := List.length_pos.mpr (encNat_ne_nil _)
          simp only [if_neg hk]
          omega
      | str s =>
        rw [jsizeV, encV]
        simp
      | arr es =>
        rw [jsizeV] at hv ⊢
        rw [encV]
        have hL : jsizeL es ≤ m := by have := jsizeL_pos es; omega
        have := ihL es hL
        simp only [List.length_cons, List.length_append, List.length_singleton]
        omega
      | obj fs =>
        rw [jsizeV] at hv ⊢
        rw [encV]
        have hF : jsizeF fs ≤ m := by have := jsizeF_pos fs; omega
        have := ihF fs hF
        simp only [List.length_cons, List.length_append, List.length_singleton]
        omega
    · intro l hl
      cases l with
      | nil => simp [jsizeL, encL]
      | cons v vs =>
        rw [jsizeL] at hl ⊢
        have hv : jsizeV v ≤ m := by have := jsizeL_pos vs; omega
        have hvs : jsizeL vs ≤ m := by have := jsizeV_pos v; omega
        have h1 := ihV v hv
        have h2 := ihL vs hvs
        cases vs with
        | nil =>
          rw [show encL [v] = encV v from by rw [encL]]
          rw [jsizeL]
          omega
        | cons w ws =>
          rw [show encL (v :: w :: ws) = encV v ++ ',' :: encL (w :: ws) from by rw [encL] <;> simp]
          simp only [List.length_append, List.length_cons]
          omega
    · intro fs hfs
      cases fs with
      | nil => simp [jsizeF, encF]
      | cons kv gs =>
        obtain ⟨k, v⟩ := kv
        rw [jsizeF] at hfs ⊢
        have hv : jsizeV v ≤ m := by have := jsizeF_pos gs; omega
        have hgs : jsizeF gs ≤ m := by have := jsizeV_pos v; omega
        have h1 := ihV v hv
        have h2 := ihF gs hgs
        cases gs with
        | nil =>
          rw [show encF [(k, v)] = '"' :: encStrChars k.data ++ '"' :: ':' :: encV v from by
            rw [encF]]
          rw [jsizeF]
          simp only [List.length_cons, List.length_append]
          omega
        | cons z zs =>
          rw [show encF ((k, v) :: z :: zs)
              = '"' :: encStrChars k.data ++ '"' :: ':' :: encV v ++ ',' :: encF (z :: zs) from by
            rw [encF] <;> simp]
          simp only [List.length_cons, List.length_append]
          omega

theorem jsonDecode_jsonbToCString (v : JsonVal) :
    jsonDecode (jsonbToCString v) = some v := by
  have hle : jsizeV v ≤ (encV v).length := (jsize_le_encLen (jsizeV v)).1 v (le_refl _)
  have h := parseJ_encV ((encV v).length + 1) v [] (by omega) rfl
  rw [List.append_nil] at h
  rw [jsonbToCString, jsonDecode]
  have hdata : (String.mk (encV v)).data = encV v := rfl
  rw [hdata, h]
  simp [skipWs]

end OmniHttpd

namespace OmniHttpd

theorem isPrefixOf_self (l : List Char) : List.isPrefixOf l l = true := by
  induction l with
  | nil => rfl
  | cons c t ih => simp [List.isPrefixOf, ih]

theorem ctNameMatch_of_exact {n : String} (h : isCTNameExact n = true) :
    ctNameMatch n = true := by
  rw [isCTNameExact, decide_eq_true_eq] at h
  rw [ctNameMatch, h]
  exact isPrefixOf_self _

theorem headerMatchesCT_of_exact {oh : Option Header} (h : headerIsExactCT oh = true) :
    headerMatchesCT oh = true := by
  cases oh with
  | none => exact absurd h (by simp [headerIsExactCT])
  | some hd =>
    rw [headerIsExactCT, headerNameIsCT] at h
    rw [headerMatchesCT]
    cases hname : hd.name with
    | none => rw [hname] at h; exact absurd h (by simp)
    | some n =>
      rw [hname] at h
      exact ctNameMatch_of_exact h

theorem scanHasCT_of_exact {l : List (Option Header)} (h : hasExactCT l = true) :
    scanHasCT (some l) = true := by
  rw [hasExactCT, List.any_eq_true] at h
  obtain ⟨oh, hmem, hoh⟩ := h
  rw [scanHasCT, List.any_eq_true]
  exact ⟨oh, hmem, headerMatchesCT_of_exact hoh⟩

theorem ctHeadersOf_nil_of_scan {l : List (Option Header)}
    (h : scanHasCT (some l) = false) : ctHeadersOf l = [] := by
  rw [scanHasCT, List.any_eq_false] at h
  rw [ctHeadersOf, List.filter_eq_nil_iff]
  intro hd hmem
  rw [List.mem_filterMap] at hmem
  obtain ⟨oh, hmem, hoh⟩ := hmem
  cases oh with
  | none => exact absurd hoh (by simp)
  | some hd' =>
    simp only [id_eq, Option.some.injEq] at hoh
    subst hoh
    have hne := h _ hmem
    intro hex
    apply hne
    exact headerMatchesCT_of_exact (by rw [headerIsExactCT]; exact hex)

theorem ctHeadersOf_append_ct (l : List (Option Header))
    (h : ctHeadersOf l = []) (v : String) (app : Bool) :
    ctHeadersOf (l ++ [some ⟨some "content-type", some v, app⟩])
      = [⟨some "content-type", some v, app⟩] := by
  rw [ctHeadersOf] at h ⊢
  rw [List.filterMap_append, List.filter_append, h, List.nil_append]
  have hct : headerNameIsCT ⟨some "content-type", some v, app⟩ = true := by
    have h0 : headerNameIsCT ⟨some "content-type", some v, app⟩ = isCTNameExact "content-type" :=
      rfl
    rw [h0]
    decide
  simp [hct]

theorem add_header_spec (hs : Option (List (Option Header)))
    (hlen : headersLen hs ≤ 2 ^ 31 - 2) (name value : String) (app : Bool) :
    add_header hs name value app = .ok (hs.getD [] ++ [some ⟨some name, some value, app⟩]) := by
  cases hs with
  | none => rfl
  | some l =>
    rw [headersLen] at hlen
    rw [add_header, if_neg (by push_cast; omega)]
    rfl

end OmniHttpd

namespace OmniHttpd

theorem http_response_headers_eq (status : Option Int)
    (headers : Option (List (Option Header))) (body : Option BodyVal) (r : HttpResponseRec)
    (h : http_response status headers body = .ok r) :
    (∃ b, body = some b ∧ isSupportedBody b = true ∧ scanHasCT headers = false ∧
        r.headers = some (headers.getD []
          ++ [some ⟨some "content-type", some (inferredContentType b), false⟩]))
    ∨ ((body = none ∨ scanHasCT headers = true) ∧ r.headers = headers) := by
  cases body with
  | none =>
    right
    refine ⟨Or.inl rfl, ?_⟩
    simp only [http_response, Except.ok.injEq] at h
    rw [← h]
  | some b =>
    cases hscan : scanHasCT headers with
    | true =>
      right
      refine ⟨Or.inr rfl, ?_⟩
      cases b <;>
        simp only [http_response, hscan, if_true, Except.ok.injEq, reduceCtorEq] at h <;>
        first
        | rw [← h]
        | exact h.elim
    | false =>
      cases b with
        | other ty =>
          simp only [http_response, hscan, reduceCtorEq] at h
        | text s =>
          left
          refine ⟨_, rfl, rfl, rfl, ?_⟩
          cases headers with
          | none =>
            simp only [http_response, hscan, Bool.false_eq_true, if_false, add_header,
              Except.ok.injEq] at h
            rw [← h]
            rfl
          | some l0 =>
            by_cases hov : (2 : Int) ^ 31 - 1 < 1 + l0.length
            · simp only [http_response, hscan, Bool.false_eq_true, if_false, add_header,
                if_pos hov, reduceCtorEq] at h
            · simp only [http_response, hscan, Bool.false_eq_true, if_false, add_header,
                if_neg hov, Except.ok.injEq] at h
              rw [← h]
              rfl

        | varchar s =>
          left
          refine ⟨_, rfl, rfl, rfl, ?_⟩
          cases headers with
          | none =>
            simp only [http_response, hscan, Bool.false_eq_true, if_false, add_header,
              Except.ok.injEq] at h
            rw [← h]
            rfl
          | some l0 =>
            by_cases hov : (2 : Int) ^ 31 - 1 < 1 + l0.length
            · simp only [http_response, hscan, Bool.false_eq_true, if_false, add_header,
                if_pos hov, reduceCtorEq] at h
            · simp only [http_response, hscan, Bool.false_eq_true, if_false, add_header,
                if_neg hov, Except.ok.injEq] at h
              rw [← h]
              rfl

        | char s =>
          left
          refine ⟨_, rfl, rfl, rfl, ?_⟩
          cases headers with
          | none =>
            simp only [http_response, hscan, Bool.false_eq_true, if_false, add_header,
              Except.ok.injEq] at h
            rw [← h]
            rfl
          | some l0 =>
            by_cases hov : (2 : Int) ^ 31 - 1 < 1 + l0.length
            · simp only [http_response, hscan, Bool.false_eq_true, if_false, add_header,
                if_pos hov, reduceCtorEq] at h
            · simp only [http_response, hscan, Bool.false_eq_true, if_false, add_header,
                if_neg hov, Except.ok.injEq] at h
              rw [← h]
              rfl

        | bytea bs =>
          left
          refine ⟨_, rfl, rfl, rfl, ?_⟩
          cases headers with
          | none =>
            simp only [http_response, hscan, Bool.false_eq_true, if_false, add_header,
              Except.ok.injEq] at h
            rw [← h]
            rfl
          | some l0 =>
            by_cases hov : (2 : Int) ^ 31 - 1 < 1 + l0.length
            · simp only [http_response, hscan, Bool.false_eq_true, if_false, add_header,
                if_pos hov, reduceCtorEq] at h
            · simp only [http_response, hscan, Bool.false_eq_true, if_false, add_header,
                if_neg hov, Except.ok.injEq] at h
              rw [← h]
              rfl

        | json s =>
          left
          refine ⟨_, rfl, rfl, rfl, ?_⟩
          cases headers with
          | none =>
            simp only [http_response, hscan, Bool.false_eq_true, if_false, add_header,
              Except.ok.injEq] at h
            rw [← h]
            rfl
          | some l0 =>
            by_cases hov : (2 : Int) ^ 31 - 1 < 1 + l0.length
            · simp only [http_response, hscan, Bool.false_eq_true, if_false, add_header,
                if_pos hov, reduceCtorEq] at h
            · simp only [http_response, hscan, Bool.false_eq_true, if_false, add_header,
                if_neg hov, Except.ok.injEq] at h
              rw [← h]
              rfl

        | jsonb v =>
          left
          refine ⟨_, rfl, rfl, rfl, ?_⟩
          cases headers with
          | none =>
            simp only [http_response, hscan, Bool.false_eq_true, if_false, add_header,
              Except.ok.injEq] at h
            rw [← h]
            rfl
          | some l0 =>
            by_cases hov : (2 : Int) ^ 31 - 1 < 1 + l0.length
            · simp only [http_response, hscan, Bool.false_eq_true, if_false, add_header,
                if_pos hov, reduceCtorEq] at h
            · simp only [http_response, hscan, Bool.false_eq_true, if_false, add_header,
                if_neg hov, Except.ok.injEq] at h
              rw [← h]
              rfl

end OmniHttpd

namespace OmniHttpd

theorem http_response_ok_of_supported (status : Option Int)
    (headers : Option (List (Option Header))) (b : BodyVal)
    (hsup : isSupportedBody b = true) (hno : scanHasCT headers = false)
    (hlen : headersLen headers ≤ 2 ^ 31 - 2) :
    http_response status headers (some b)
      = .ok ⟨(match status with | none => 200 | some s => s),
          some (headers.getD []
            ++ [some ⟨some "content-type", some (inferredContentType b), false⟩]),
          (match b with | .jsonb v => some (.text (jsonbToCString v)) | _ => some b)⟩ := by
  cases b with
  | other ty => exact absurd hsup (by simp [isSupportedBody])
  | text s =>
    simp only [http_response, hno, Bool.false_eq_true, if_false, add_header_spec headers hlen]
    rfl
  | varchar s =>
    simp only [http_response, hno, Bool.false_eq_true, if_false, add_header_spec headers hlen]
    rfl
  | char s =>
    simp only [http_response, hno, Bool.false_eq_true, if_false, add_header_spec headers hlen]
    rfl
  | bytea bs =>
    simp only [http_response, hno, Bool.false_eq_true, if_false, add_header_spec headers hlen]
    rfl
  | json s =>
    simp only [http_response, hno, Bool.false_eq_true, if_false, add_header_spec headers hlen]
    rfl
  | jsonb v =>
    simp only [http_response, hno, Bool.false_eq_true, if_false, add_header_spec headers hlen]
    rfl

theorem http_response_ok_of_hasCT (status : Option Int)
    (headers : Option (List (Option Header))) (b : BodyVal)
    (hsup : isSupportedBody b = true) (hct : scanHasCT headers = true) :
    http_response status headers (some b)
      = .ok ⟨(match status with | none => 200 | some s => s), headers,
          (match b with | .jsonb v => some (.text (jsonbToCString v)) | _ => some b)⟩ := by
  cases b with
  | other ty => exact absurd hsup (by simp [isSupportedBody])
  | text s => simp only [http_response, hct, if_true]
  | varchar s => simp only [http_response, hct, if_true]
  | char s => simp only [http_response, hct, if_true]
  | bytea bs => simp only [http_response, hct, if_true]
  | json s => simp only [http_response, hct, if_true]
  | jsonb v => simp only [http_response, hct, if_true]

end OmniHttpd

namespace OmniHttpd

/-- C1 (counterexample): the claim fails as stated.  The supplied headers
contain a header named `content` — which does not case-insensitively equal
`content-type` — yet `http_response` with a text body returns the supplied
headers unchanged, containing zero `content-type` headers rather than
exactly one, because the `strncasecmp` comparison at omni_httpd.c:198
treats any case-insensitive prefix of `content-type` as an existing
content-type header. -/
theorem http_response_content_prefix_suppresses_inference :
    isCTNameExact "content" = false ∧
    http_response none (some [some ⟨some "content", some "x", false⟩])
        (some (.text "hi"))
      = .ok ⟨200, some [some ⟨some "content", some "x", false⟩], some (.text "hi")⟩ ∧
    ctHeadersOf [some ⟨some "content", some "x", false⟩] = [] :=
  ⟨by decide, rfl, by decide⟩

/-- C1 (amended): for a call to `http_response` with a non-null body of a
supported type and a headers argument containing no header whose name is a
case-insensitive prefix of `content-type` (the code's actual test; in
particular no header case-insensitively named `content-type`), and whose
header count leaves the insertion index in signed 32-bit range, the returned
headers contain exactly one header named `content-type`, whose value is the
one inferred from the body type. -/
theorem http_response_unique_inferred_content_type
    (status : Option Int) (headers : Option (List (Option Header))) (b : BodyVal)
    (hsup : isSupportedBody b = true) (hno : scanHasCT headers = false)
    (hlen : headersLen headers ≤ 2 ^ 31 - 2) :
    ∃ r l, http_response status headers (some b) = .ok r ∧ r.headers = some l ∧
      ctHeadersOf l = [⟨some "content-type", some (inferredContentType b), false⟩] := by
  refine ⟨_, _, http_response_ok_of_supported status headers b hsup hno hlen, rfl, ?_⟩
  have hnil : ctHeadersOf (headers.getD []) = [] := by
    cases headers with
    | none => rfl
    | some l0 => exact ctHeadersOf_nil_of_scan hno
  exact ctHeadersOf_append_ct _ hnil _ _

/-- C1 (witness): the amended theorem applied to a concrete call with one
unrelated header and a text body. -/
theorem http_response_unique_inferred_content_type_witness :
    isSupportedBody (.text "hi") = true ∧
    scanHasCT (some [some ⟨some "x-custom", some "1", true⟩]) = false ∧
    headersLen (some [some ⟨some "x-custom", some "1", true⟩]) ≤ 2 ^ 31 - 2 ∧
    (∃ r l, http_response none (some [some ⟨some "x-custom", some "1", true⟩])
          (some (.text "hi")) = .ok r ∧
        r.headers = some l ∧
        ctHeadersOf l
          = [⟨some "content-type", some (inferredContentType (.text "hi")), false⟩]) :=
  ⟨rfl, by decide, by decide,
    http_response_unique_inferred_content_type none _ _ (by decide) (by decide) (by decide)⟩

/-- C2 (counterexample): the claim fails as stated for `json` bodies.  The
json text `" 1"` denotes the JSON value 1, whose canonical text form is
`"1"`; yet `http_response` returns the body text unchanged (`" 1"`), because
the `JSONBOID` case at omni_httpd.c:226-229 falls through to `JSONOID`
without re-encoding plain `json` bodies. -/
theorem http_response_json_body_not_reencoded :
    jsonDecode " 1" = some (JsonVal.num 1) ∧
    jsonbToCString (JsonVal.num 1) = "1" ∧
    http_response none none (some (.json " 1"))
      = .ok ⟨200, some [some ⟨some "content-type", some "text/json", false⟩],
          some (.json " 1")⟩ ∧
    (" 1" : String) ≠ "1" :=
  ⟨rfl, rfl, rfl, by decide⟩

/-- C2 (amended): only `jsonb` bodies are re-encoded: for a `jsonb` body the
returned body is the canonical text form of the value and decoding it yields
a value equal to the input; a `json` body is passed through textually
unchanged (so its decoded value is also unchanged). -/
theorem http_response_json_jsonb_body_encoding
    (status : Option Int) (headers : Option (List (Option Header)))
    (v : JsonVal) (s : String)
    (hlen : headersLen headers ≤ 2 ^ 31 - 2) :
    (∃ r, http_response status headers (some (.jsonb v)) = .ok r ∧
        r.body = some (.text (jsonbToCString v)) ∧
        jsonDecode (jsonbToCString v) = some v) ∧
    (∃ r, http_response status headers (some (.json s)) = .ok r ∧
        r.body = some (.json s)) := by
  constructor
  · cases hscan : scanHasCT headers with
    | true =>
      exact ⟨_, http_response_ok_of_hasCT status headers (.jsonb v) rfl hscan, rfl,
        jsonDecode_jsonbToCString v⟩
    | false =>
      exact ⟨_, http_response_ok_of_supported status headers (.jsonb v) rfl hscan hlen, rfl,
        jsonDecode_jsonbToCString v⟩
  · cases hscan : scanHasCT headers with
    | true =>
      exact ⟨_, http_response_ok_of_hasCT status headers (.json s) rfl hscan, rfl⟩
    | false =>
      exact ⟨_, http_response_ok_of_supported status headers (.json s) rfl hscan hlen, rfl⟩

/-- C2 (witness): the amended theorem applied to a concrete structured value
and a concrete json text with null headers. -/
theorem http_response_json_jsonb_body_encoding_witness :
    headersLen (none : Option (List (Option Header))) ≤ 2 ^ 31 - 2 ∧
    ((∃ r, http_response none none (some (.jsonb (.obj [("a", .num 1)]))) = .ok r ∧
        r.body = some (.text (jsonbToCString (.obj [("a", .num 1)]))) ∧
        jsonDecode (jsonbToCString (.obj [("a", .num 1)])) = some (.obj [("a", .num 1)])) ∧
    (∃ r, http_response none none (some (.json "[1, 2]")) = .ok r ∧
        r.body = some (.json "[1, 2]"))) :=
  ⟨by decide, http_response_json_jsonb_body_encoding none none _ _ (by decide)⟩

/-- C3 (counterexample): the claim fails as stated.  Called as a trigger on
a state with semaphore value 0, `reload_configuration` posts the
notification but leaves the reload semaphore at 0 instead of fetch-adding 1:
the function body (omni_httpd.c:97-105) contains only `Async_Notify` and the
return. -/
theorem reload_configuration_semaphore_unchanged_cex :
    (reload_configuration true ⟨[], 0⟩).1.notifications = [configuration_notify_channel] ∧
    (reload_configuration true ⟨[], 0⟩).1.reloadSemaphore ≠ 0 + 1 :=
  ⟨rfl, by decide⟩

/-- C3 (amended): every invocation of `reload_configuration` posts exactly
one notification on the fixed channel and leaves the shared reload semaphore
unchanged (no fetch-add is performed). -/
theorem reload_configuration_notifies_only (calledAsTrigger : Bool) (st : PgNotifyState) :
    (reload_configuration calledAsTrigger st).1.notifications
        = st.notifications ++ [configuration_notify_channel] ∧
    (reload_configuration calledAsTrigger st).1.reloadSemaphore = st.reloadSemaphore :=
  ⟨rfl, rfl⟩

/-- C4: the validity trigger accepts a candidate query (returns without
error) if and only if the query parses to exactly one statement and the
statement list, with the `request` CTE stub prepended under the name
`request`, passes the static validity check; this holds for every behaviour
of the external omni_sql operations. -/
theorem validity_trigger_accepts_iff {α : Type} (ops : SqlOps α) (q : String) :
    isOkE (handlers_query_validity_trigger ops true (some q)) = true
      ↔ ((ops.parseStatement q).length = 1 ∧
          ops.isValid (ops.addCte (ops.parseStatement q) "request"
            (ops.parseStatement request_cte_text) false true) = none) := by
  simp only [handlers_query_validity_trigger, if_true]
  by_cases hlen : (ops.parseStatement q).length = 1
  · simp only [hlen, ne_eq, not_true_eq_false, if_false]
    cases hval : ops.isValid (ops.addCte (ops.parseStatement q) "request"
        (ops.parseStatement request_cte_text) false true) with
    | none => simp [isOkE, hval]
    | some err => simp [isOkE, hval]
  · simp [hlen, isOkE]

/-- C5: when the supplied header list contains a header whose name
case-insensitively equals `content-type`, any successful `http_response`
call returns exactly the supplied header sequence: nothing is added, removed
or modified. -/
theorem http_response_preserves_supplied_content_type
    (status : Option Int) (l : List (Option Header)) (body : Option BodyVal)
    (r : HttpResponseRec)
    (hct : hasExactCT l = true)
    (h : http_response status (some l) body = .ok r) :
    r.headers = some l := by
  have hscan := scanHasCT_of_exact hct
  rcases http_response_headers_eq status (some l) body r h with ⟨b, hb, hsup, hno, _⟩ | ⟨_, hh⟩
  · rw [hscan] at hno
    exact Bool.noConfusion hno
  · exact hh

/-- C5 (witness): the theorem applied to a concrete call supplying a
`Content-Type: application/xml` header with a text body. -/
theorem http_response_preserves_supplied_content_type_witness :
    hasExactCT [some ⟨some "Content-Type", some "application/xml", false⟩] = true ∧
    (⟨200, some [some ⟨some "Content-Type", some "application/xml", false⟩],
        some (.text "<x/>")⟩ : HttpResponseRec).headers
      = some [some ⟨some "Content-Type", some "application/xml", false⟩] :=
  ⟨by decide,
    http_response_preserves_supplied_content_type none _ (some (.text "<x/>")) _
      (by decide) rfl⟩

/-- C6: when `http_response` infers a content-type (supported non-null body,
no header passing the content-type scan, insertion index in range), the
inferred header is appended as a new last element with append=false, and
every pre-existing header is preserved unchanged and in original order. -/
theorem http_response_appends_inferred_header
    (status : Option Int) (headers : Option (List (Option Header))) (b : BodyVal)
    (hsup : isSupportedBody b = true) (hno : scanHasCT headers = false)
    (hlen : headersLen headers ≤ 2 ^ 31 - 2) :
    ∃ r, http_response status headers (some b) = .ok r ∧
      r.headers = some (headers.getD []
        ++ [some ⟨some "content-type", some (inferredContentType b), false⟩]) :=
  ⟨_, http_response_ok_of_supported status headers b hsup hno hlen, rfl⟩

/-- C6 (witness): the theorem applied to a concrete call with two
pre-existing headers and a bytea body. -/
theorem http_response_appends_inferred_header_witness :
    isSupportedBody (.bytea [1, 2]) = true ∧
    scanHasCT (some [some ⟨some "x-a", some "1", true⟩, none]) = false ∧
    (∃ r, http_response none (some [some ⟨some "x-a", some "1", true⟩, none])
          (some (.bytea [1, 2])) = .ok r ∧
        r.headers = some ([some ⟨some "x-a", some "1", true⟩, none]
          ++ [some ⟨some "content-type",
                some (inferredContentType (.bytea [1, 2])), false⟩])) :=
  ⟨rfl, by decide,
    http_response_appends_inferred_header none _ _ (by decide) (by decide) (by decide)⟩

/-- C7: a non-null body of an unsupported argument type makes
`http_response` fail with the unsupported-body-type error, naming the type,
instead of returning a record. -/
theorem http_response_unsupported_type_errors
    (status : Option Int) (headers : Option (List (Option Header))) (ty : String) :
    http_response status headers (some (.other ty))
      = .error ("Can't (yet) cast " ++ ty ++ " to bytea") := rfl

/-- C8: a successful `http_response` call returns a record whose headers
field is SQL NULL exactly when both the headers argument and the body
argument were SQL NULL; in every other non-erroring case the headers field
is a non-null array, and when headers were NULL but a body was present it is
moreover non-empty (the inferred singleton, never an empty array). -/
theorem http_response_headers_null_iff
    (status : Option Int) (headers : Option (List (Option Header)))
    (body : Option BodyVal) (r : HttpResponseRec)
    (h : http_response status headers body = .ok r) :
    (r.headers = none ↔ headers = none ∧ body = none) ∧
    (headers = none → body ≠ none → ∃ l, r.headers = some l ∧ l ≠ []) := by
  rcases http_response_headers_eq status headers body r h with ⟨b, hb, hsup, hno, hh⟩ | ⟨hcase, hh⟩
  · subst hb
    constructor
    · rw [hh]
      simp
    · intro hnone _
      subst hnone
      exact ⟨_, hh, by simp⟩
  · rcases hcase with hbody | hscan
    · subst hbody
      rw [hh]
      constructor
      · simp
      · intro _ hne
        exact absurd rfl hne
    · have hsome : ∃ l0, headers = some l0 := by
        cases headers with
        | none => rw [scanHasCT] at hscan; exact Bool.noConfusion hscan
        | some l0 => exact ⟨l0, rfl⟩
      obtain ⟨l0, rfl⟩ := hsome
      rw [hh]
      constructor
      · simp
      · intro hcontra
        exact absurd hcontra (by simp)

/-- C8 (witness): the theorem applied to the call with both arguments NULL,
whose result has a NULL headers field. -/
theorem http_response_headers_null_iff_witness :
    ((⟨200, none, none⟩ : HttpResponseRec).headers = none
        ↔ ((none : Option (List (Option Header))) = none ∧ (none : Option BodyVal) = none)) ∧
    ((none : Option (List (Option Header))) = none → (none : Option BodyVal) ≠ none →
      ∃ l, (⟨200, none, none⟩ : HttpResponseRec).headers = some l ∧ l ≠ []) :=
  http_response_headers_null_iff none none none ⟨200, none, none⟩ rfl

/-- C9: called as a trigger on a row whose query column is SQL NULL, the
validity trigger raises the `query can't be null` error, so a NULL query is
never accepted. -/
theorem validity_trigger_rejects_null_query {α : Type} (ops : SqlOps α) :
    handlers_query_validity_trigger ops true none = .error "query can't be null" := rfl

/-- C10: the insertion index of `add_header` is computed as lower bound plus
dimension under an explicit signed 32-bit overflow check: a successful
result is exactly `lb + dim` (no wrap-around) and lies in signed 32-bit
range, while an out-of-range sum raises the `integer out of range` error. -/
theorem add_header_index_no_wraparound (lb dim : Int) :
    (∀ i, add_header_index lb dim = .ok i →
        i = lb + dim ∧ -(2 ^ 31) ≤ i ∧ i ≤ 2 ^ 31 - 1) ∧
    ((lb + dim < -(2 ^ 31) ∨ 2 ^ 31 - 1 < lb + dim) →
      add_header_index lb dim = .error "integer out of range") := by
  constructor
  · intro i hi
    rw [add_header_index, pg_add_s32_overflow] at hi
    by_cases hov : lb + dim < -(2 ^ 31) ∨ 2 ^ 31 - 1 < lb + dim
    · rw [if_pos hov] at hi
      exact Except.noConfusion hi
    · rw [if_neg hov] at hi
      simp only [Except.ok.injEq] at hi
      push_neg at hov
      refine ⟨hi.symm, ?_, ?_⟩ <;> omega
  · intro hov
    rw [add_header_index, pg_add_s32_overflow, if_pos hov]

/-- C10 (witness): an in-range index is the exact sum, and the boundary sum
`1 + (2^31 - 1)` raises the error. -/
theorem add_header_index_no_wraparound_witness :
    ((6 : Int) = 1 + 5 ∧ -(2 ^ 31) ≤ (6 : Int) ∧ (6 : Int) ≤ 2 ^ 31 - 1) ∧
    add_header_index 1 (2 ^ 31 - 1) = .error "integer out of range" :=
  ⟨(add_header_index_no_wraparound 1 5).1 6 rfl,
    (add_header_index_no_wraparound 1 (2 ^ 31 - 1)).2 (by decide)⟩

end OmniHttpd
